import Mathlib

/-!
Verification of the harrow file-backed buffer library.

This file is a shallow embedding of the Rust sources (src/align.rs,
src/cache.rs, src/infra.rs, src/lib.rs) into Lean.  Machine integers
(`usize`) are modelled as `Nat`; none of the modelled arithmetic can
overflow in the scenarios of interest, and the source relies on the same
assumption.  Memory-mapped views are modelled coherently: every mapping
of a file region is a window onto a single byte array (the file), which
is the behaviour of shared file mappings within one process.  A raw
pointer is modelled as an abstract identifier (`ptr : Nat`) plus the
file offset of the mapping it points into; pointer arithmetic
`base.add(k)` therefore addresses file byte `off + k` of the mapping.
Fallible operations return `Except String`, with `panic`-like assertion
failures modelled as `.error` values.
-/

namespace Harrow

/-- From src/align.rs `align_add`: round `n` up to a multiple of the
alignment `a`. -/
def align_add (a n : Nat) : Nat :=
  let offset := n % a
  n + (if offset > 0 then a - offset else 0)

/-- From src/align.rs `align_sub`: round `n` down to a multiple of the
alignment `a`. -/
def align_sub (a n : Nat) : Nat :=
  let factor := n / a
  factor * a

/-- From src/unix.rs (resp. src/windows.rs) `RawView`: an OS mapping of
the file region `[off, off + len)`.  `ptr` is the abstract base address
of the mapping and `writable` the protection flag. -/
structure RawView where
  ptr : Nat
  off : Nat
  len : Nat
  writable : Bool
deriving Repr, DecidableEq

/-- From src/cache.rs `CachedBlock`: a raw mapping together with a
borrow counter (`refs`) and a dirty flag. -/
structure CachedBlock where
  view : RawView
  refs : Nat
  dirty : Bool
deriving Repr, DecidableEq

/-- From src/cache.rs `CachedBlock::new`. -/
def CachedBlock.new (view : RawView) : CachedBlock :=
  { view := view, refs := 0, dirty := false }

/-- From src/cache.rs `CachedBlock::is_hit`: containment of the request
`[off, off + len)` in the block range. -/
def CachedBlock.is_hit (b : CachedBlock) (off len : Nat) : Bool :=
  decide (b.view.off ≤ off) && decide (b.view.off + b.view.len ≥ off + len)

/-- From src/cache.rs `CachedBlock::is_overlapping`: non-empty
intersection of the block range with `[off, off + len)`. -/
def CachedBlock.is_overlapping (b : CachedBlock) (off len : Nat) : Bool :=
  let start := max b.view.off off
  let stop := min (b.view.off + b.view.len) (off + len)
  decide (start < stop)

/-- From src/cache.rs `ViewRef` (without its cache back-pointer): the
base pointer of the block, the file offset of that block (recoverable
from the base pointer in the memory model), the inner offset and the
length.  The slice it denotes is file bytes
`[blockOff + off, blockOff + off + len)`. -/
structure ViewRefData where
  base_ptr : Nat
  blockOff : Nat
  off : Nat
  len : Nat
deriving Repr, DecidableEq

/-- From src/cache.rs `ViewMut` (without its cache back-pointer). -/
structure ViewMutData where
  base_ptr : Nat
  blockOff : Nat
  off : Nat
  len : Nat
deriving Repr, DecidableEq

/-- From src/cache.rs `CachedBlock::view_ref`: increment the borrow
counter and mint a reference whose inner offset is `off - B.off`. -/
def CachedBlock.view_ref (b : CachedBlock) (off len : Nat) :
    CachedBlock × ViewRefData :=
  ({ b with refs := b.refs + 1 },
   { base_ptr := b.view.ptr, blockOff := b.view.off,
     off := off - b.view.off, len := len })

/-- From src/cache.rs `Cache`: the three containers plus the capacity of
the available queue.  The `available` list is ordered front (oldest,
next to be evicted) to back (most recently added).  The redundant `len`
counter of the source, which mirrors `available.len()`, is omitted. -/
structure Cache where
  available : List CachedBlock
  lent : List CachedBlock
  exclusive : Option CachedBlock
  capacity : Nat
deriving Repr, DecidableEq

/-- The state `Cache::with_capacity` produces on success. -/
def Cache.init (capacity : Nat) : Cache :=
  { available := [], lent := [], exclusive := none, capacity := capacity }

/-- From src/cache.rs `Cache::with_capacity`: a zero capacity panics
(`NonZeroUsize::new(..).expect(..)`). -/
def Cache.with_capacity (capacity : Nat) : Except String Cache :=
  if capacity = 0 then .error "capacity must be non-zero"
  else .ok (Cache.init capacity)

/-- The index found by `.iter().enumerate().rev().find(is_hit)` in
src/cache.rs: the largest index whose block contains the request.
Index 0 is the front of the `VecDeque`. -/
def findLastHit (off len : Nat) : List CachedBlock → Option Nat
  | [] => none
  | b :: rest =>
    match findLastHit off len rest with
    | some i => some (i + 1)
    | none => if b.is_hit off len then some 0 else none

/-- From src/cache.rs `Cache::acquire_available`: search `available` in
reverse insertion order for a containing block and remove it. -/
def Cache.acquire_available (c : Cache) (off len : Nat) :
    Option (CachedBlock × Cache) :=
  match findLastHit off len c.available with
  | some i =>
    match c.available.get? i with
    | some b => some (b, { c with available := c.available.eraseIdx i })
    | none => none
  | none => none

/-- From src/cache.rs `Cache::take`: the result is the updated cache and
`some view` on a hit, or the unchanged cache and `none` (the empty
`Take` token carrying `off` and `len`) on a miss. -/
def Cache.take (c : Cache) (off len : Nat) : Cache × Option ViewRefData :=
  match c.acquire_available off len with
  | some (b, c1) =>
    let bv := b.view_ref off len
    ({ c1 with lent := c1.lent ++ [bv.1] }, some bv.2)
  | none =>
    match findLastHit off len c.lent with
    | some i =>
      match c.lent.get? i with
      | some b =>
        let bv := b.view_ref off len
        ({ c with lent := c.lent.set i bv.1 }, some bv.2)
      | none => (c, none)
    | none => (c, none)

/-- From src/cache.rs `Cache::add_fetched_ref` (the miss arm of
`Take::or_fetch`): wrap the fetched mapping in a fresh block, mint the
first reference to it and push the block into `lent`. -/
def Cache.add_fetched_ref (c : Cache) (v : RawView) (off len : Nat) :
    Cache × ViewRefData :=
  let bv := (CachedBlock.new v).view_ref off len
  ({ c with lent := c.lent ++ [bv.1] }, bv.2)

/-- From src/cache.rs `CachedBlock::view_mut`: asserts that the borrow
counter is zero and mints the mutable view. -/
def CachedBlock.view_mut (b : CachedBlock) (off len : Nat) :
    Except String ViewMutData :=
  if b.refs ≠ 0 then .error "assertion failed: refs == 0"
  else .ok { base_ptr := b.view.ptr, blockOff := b.view.off,
             off := off - b.view.off, len := len }

/-- From src/cache.rs `Cache::take_mut`: asserts `lent` is empty, then
searches `available` only; on a hit the block moves into `exclusive`,
otherwise an empty `TakeMut` token is returned (modelled as `none`). -/
def Cache.take_mut (c : Cache) (off len : Nat) :
    Except String (Cache × Option ViewMutData) :=
  if c.lent.length ≠ 0 then .error "assertion failed: lent is empty"
  else
    match c.acquire_available off len with
    | some (b, c1) =>
      match b.view_mut off len with
      | .error e => .error e
      | .ok v => .ok ({ c1 with exclusive := some b }, some v)
    | none => .ok (c, none)

/-- From src/cache.rs `Cache::add_fetched_mut` (the miss arm of
`TakeMut::or_fetch`): the fetched mapping becomes a fresh block placed
directly into `exclusive`. -/
def Cache.add_fetched_mut (c : Cache) (v : RawView) (off len : Nat) :
    Except String (Cache × ViewMutData) :=
  let b := CachedBlock.new v
  match b.view_mut off len with
  | .error e => .error e
  | .ok vm => .ok ({ c with exclusive := some b }, vm)

/-- From src/cache.rs `CachedBlock::flush_if_dirty`: whether a flush of
the mapping is performed when the block is discarded. -/
def CachedBlock.flush_performed (b : CachedBlock) : Bool :=
  b.dirty

/-- The blocks the overlap purge of `Cache::add_available` removes:
those of `available` overlapping the incoming block's range. -/
def Cache.purged (c : Cache) (block : CachedBlock) : List CachedBlock :=
  c.available.filter (fun b => b.is_overlapping block.view.off block.view.len)

/-- The blocks `available.retain(..)` keeps in `Cache::add_available`:
those of `available` not overlapping the incoming block's range. -/
def Cache.kept (c : Cache) (block : CachedBlock) : List CachedBlock :=
  c.available.filter (fun b => !(b.is_overlapping block.view.off block.view.len))

/-- From src/cache.rs `Cache::add_available`.  Besides the new cache
state it returns the removal events: each block that leaves the cache
(and is subsequently unmapped by `Drop`) paired with whether its mapping
was flushed on the way out.  Blocks removed by the overlap purge
(`available.retain(..)`) are dropped without a flush; the block popped
from the front on capacity overflow goes through `flush_if_dirty`. -/
def Cache.add_available (c : Cache) (block : CachedBlock) :
    Cache × List (CachedBlock × Bool) :=
  let events := (c.purged block).map (fun b => (b, false))
  if (c.kept block).length < c.capacity then
    ({ c with available := c.kept block ++ [block] }, events)
  else
    match c.kept block with
    | [] =>
      -- unreachable when the capacity is non-zero: an empty queue is
      -- always below capacity (the source would fail on pop_front)
      ({ c with available := [block] }, events)
    | d :: rest =>
      ({ c with available := rest ++ [block] },
       events ++ [(d, d.flush_performed)])

/-- From src/cache.rs `Cache::restore_ref` (the drop path of `ViewRef`):
find the first lent block whose base pointer matches, decrement its
borrow counter, and when it reaches zero move the block from `lent` to
`available`. -/
def Cache.restore_ref (c : Cache) (view : ViewRefData) :
    Cache × List (CachedBlock × Bool) :=
  match c.lent.findIdx? (fun b => b.view.ptr == view.base_ptr) with
  | none => (c, [])
  | some i =>
    match c.lent.get? i with
    | none => (c, [])
    | some b =>
      if b.refs = 1 then
        Cache.add_available { c with lent := c.lent.eraseIdx i }
          { b with refs := 0 }
      else
        ({ c with lent := c.lent.set i { b with refs := b.refs - 1 } }, [])

/-- From src/cache.rs `Cache::restore_mut` (the drop path of `ViewMut`):
take the block out of `exclusive`, mark it dirty and hand it to
`add_available`.  An empty `exclusive` slot would panic in the source
(`unwrap`); here the cache is returned unchanged. -/
def Cache.restore_mut (c : Cache) : Cache × List (CachedBlock × Bool) :=
  match c.exclusive with
  | none => (c, [])
  | some b =>
    Cache.add_available { c with exclusive := none } { b with dirty := true }

/-- From src/infra.rs `fix_cache_block_size`: a zero block size becomes
one alignment unit, otherwise the block size is rounded up. -/
def fix_cache_block_size (a cache_block_size : Nat) : Nat :=
  if cache_block_size = 0 then a else align_add a cache_block_size

/-- From src/infra.rs `File`: the facade state.  The raw file is the
byte array `data` (its length is `RawFile::len`); `nextPtr` is the
allocator of fresh mapping base addresses in the memory model. -/
structure FileM where
  data : List Nat
  cache : Cache
  writable : Bool
  cache_block_size : Nat
  nextPtr : Nat
deriving Repr, DecidableEq

/-- The file length (`File::len`, backed by `RawFile::len`). -/
def FileM.flen (f : FileM) : Nat := f.data.length

/-- From src/infra.rs `File::fetch_impl`, the range arithmetic: the
fetched range is `[align_sub off, min (file len) (max (align_add (off +
len)) cache_block_size))`, returned as offset and length. -/
def fetch_range (a flen cache_block_size off len : Nat) : Nat × Nat :=
  let e := max (align_add a (off + len)) cache_block_size
  let o := align_sub a off
  let e2 := min e flen
  (o, e2 - o)

/-- From src/infra.rs `File::fetch` / `RawFile::view`: create a fresh
mapping over the fetched range.  IO failures are not modelled. -/
def FileM.fetch (a : Nat) (f : FileM) (off len : Nat) : RawView × FileM :=
  let ol := fetch_range a f.flen f.cache_block_size off len
  ({ ptr := f.nextPtr, off := ol.1, len := ol.2, writable := f.writable },
   { f with nextPtr := f.nextPtr + 1 })

/-- The composite `cache.take(off, len).or_fetch(|off, len|
self.fetch(off, len))` used by `File::view` and `File::copy_within`. -/
def FileM.takeOrFetch (a : Nat) (f : FileM) (off len : Nat) :
    FileM × ViewRefData :=
  match f.cache.take off len with
  | (c, some v) => ({ f with cache := c }, v)
  | (_, none) =>
    let rf := f.fetch a off len
    let cv := rf.2.cache.add_fetched_ref rf.1 off len
    ({ rf.2 with cache := cv.1 }, cv.2)

/-- From src/infra.rs `File::view`: bounds check (panic modelled as an
error) then take-or-fetch. -/
def FileM.view (a : Nat) (f : FileM) (off len : Nat) :
    Except String (FileM × ViewRefData) :=
  if off + len > f.flen then .error "out of bounds"
  else .ok (f.takeOrFetch a off len)

/-- From src/unix.rs `RawFile::resize` via `ffi::truncate`: the file
content is cut or zero-extended to the new length. -/
def truncateData (data : List Nat) (new_len : Nat) : List Nat :=
  data.take new_len ++ List.replicate (new_len - data.length) 0

/-- From src/infra.rs `File::resize`.  The boolean records whether the
mapping layer truncation (`self.raw.resize`) was invoked. -/
def FileM.resize (a : Nat) (f : FileM) (new_len : Nat) :
    Except String (FileM × Bool) :=
  if f.writable ≠ true then
    .error "underlying file was opened as read-only"
  else if new_len = 0 then
    .error "new_len must be greater than zero"
  else
    let old_len := f.flen
    let nl := align_add a new_len
    if old_len = nl then .ok (f, false)
    else .ok ({ f with data := truncateData f.data nl }, true)

/-- Byte-by-byte copy in increasing index order: reads file position
`srcPos + i` and writes file position `dstPos + i` for `i = 0, 1, ...`,
each read seeing the writes already performed (the coherent view of the
shared pages). -/
def copyForward (data : List Nat) (srcPos dstPos count : Nat) : List Nat :=
  match count with
  | 0 => data
  | n + 1 =>
    copyForward (data.set dstPos (data.getD srcPos 0)) (srcPos + 1)
      (dstPos + 1) n

/-- Byte-by-byte copy in decreasing index order: the highest index is
written first, each read seeing the writes already performed. -/
def copyBackward (data : List Nat) (srcPos dstPos count : Nat) : List Nat :=
  match count with
  | 0 => data
  | n + 1 =>
    copyBackward (data.set (dstPos + n) (data.getD (srcPos + n) 0))
      srcPos dstPos n

/-- The memmove result: the source bytes are read as if into a
temporary buffer and then written to the destination range. -/
def memcopy (data : List Nat) (srcPos dstPos count : Nat) : List Nat :=
  (List.range data.length).map fun j =>
    if dstPos ≤ j ∧ j < dstPos + count then data.getD (srcPos + (j - dstPos)) 0
    else data.getD j 0

/-- From src/infra.rs `File::copy_within`: mode assertion and bounds
panics modelled as errors; two read views taken through the cache; the
byte copy performed through the views' raw pointers; then both views
are dropped (destination first, source second).

The copy semantics in the coherent-memory model: `ptr::copy` (the
overlapping-index branch) guarantees the memmove result only with
respect to its two *virtual* ranges.  When both views are minted on the
same mapping (equal base pointers), virtual distance equals file
distance, so the file bytes receive exactly the memmove result
(`memcopy`).  When the views come from two distinct mappings, their
virtual ranges are disjoint — yet the file ranges overlap through the
shared pages — and the implementation is free to copy in either
direction; this unspecified choice is the `backward` parameter (the two
byte-sequential directions; the source program constrains it no
further).  `ptr::copy_nonoverlapping` (the disjoint-index branch) never
has an aliased read, so every order yields the plain copy, modelled as
`copyForward`. -/
def FileM.copy_within (a : Nat) (backward : Bool) (f : FileM)
    (src dst count : Nat) : Except String FileM :=
  if f.writable ≠ true then
    .error "underlying file was opened as read-only"
  else if src + count > f.flen then .error "src out of bounds"
  else if dst + count > f.flen then .error "dst out of bounds"
  else if count = 0 then .ok f
  else
    let fs := f.takeOrFetch a src count
    let src_view := fs.2
    let fd := fs.1.takeOrFetch a dst count
    let dst_view := fd.2
    let srcPos := src_view.blockOff + src_view.off
    let dstPos := dst_view.blockOff + dst_view.off
    let data2 :=
      if (src ≥ dst && src < dst + count) || (dst ≥ src && dst < src + count)
      then
        if src_view.base_ptr == dst_view.base_ptr
        then memcopy fd.1.data srcPos dstPos count
        else if backward
        then copyBackward fd.1.data srcPos dstPos count
        else copyForward fd.1.data srcPos dstPos count
      else copyForward fd.1.data srcPos dstPos count
    let c3 := (fd.1.cache.restore_ref dst_view).1
    let c4 := (c3.restore_ref src_view).1
    .ok { fd.1 with data := data2, cache := c4 }

/-- From src/infra.rs `Iter`: the current view, the within-view cursor
`cur` and the cumulative cursor `cum`.  The borrowed file is passed
separately. -/
structure IterM where
  view : ViewRefData
  cur : Nat
  cum : Nat
deriving Repr, DecidableEq

/-- From src/infra.rs `Iter::from_file`: fetch the initial view of
length `min (file len) cache_block_size` at offset 0. -/
def Iter.from_file (a : Nat) (f : FileM) : Except String (FileM × IterM) :=
  let block_size := min f.flen f.cache_block_size
  match f.view a 0 block_size with
  | .error e => .error e
  | .ok fv => .ok (fv.1, { view := fv.2, cur := 0, cum := 0 })

/-- From src/infra.rs `Iter::next`.  On view exhaustion the source
requests `self.file.view(self.cur, min(remaining, block size))` — note
the offset is the within-view cursor `cur`, not the cumulative position
`cum` — and the assignment to `self.view` drops the previous view. -/
def Iter.next (a : Nat) (f : FileM) (it : IterM) :
    Except String (Option (Nat × FileM × IterM)) :=
  if it.cum = f.flen then .ok none
  else
    let step : Except String (FileM × IterM) :=
      if it.cur = it.view.len then
        let block_size := min (f.flen - it.cum) f.cache_block_size
        match f.view a it.cur block_size with
        | .error e => .error e
        | .ok fv =>
          let c2 := (fv.1.cache.restore_ref it.view).1
          .ok ({ fv.1 with cache := c2 }, { it with view := fv.2, cur := 0 })
      else .ok (f, it)
    match step with
    | .error e => .error e
    | .ok (f2, it2) =>
      let byte := f2.data.getD (it2.view.blockOff + it2.view.off + it2.cur) 0
      .ok (some (byte, f2,
        { it2 with cur := it2.cur + 1, cum := it2.cum + 1 }))

/-- Run the iterator for at most `fuel` steps, collecting the yielded
bytes. -/
def Iter.run (a : Nat) (fuel : Nat) (f : FileM) (it : IterM) :
    Except String (List Nat) :=
  match fuel with
  | 0 => .ok []
  | n + 1 =>
    match Iter.next a f it with
    | .error e => .error e
    | .ok none => .ok []
    | .ok (some (byte, f2, it2)) =>
      match Iter.run a n f2 it2 with
      | .error e => .error e
      | .ok rest => .ok (byte :: rest)

/-- Iterate a file from the start: `Iter::from_file` then repeated
`Iter::next` until exhaustion. -/
def iterBytes (a : Nat) (f : FileM) : Except String (List Nat) :=
  match Iter.from_file a f with
  | .error e => .error e
  | .ok fit => Iter.run a (f.flen + 1) fit.1 fit.2

/-- From src/lib.rs `DEFAULT_CACHE_CAPACITY`. -/
def DEFAULT_CACHE_CAPACITY : Nat := 5

/-- From src/lib.rs `DEFAULT_CACHE_BLOCK_SIZE` (128 MiB). -/
def DEFAULT_CACHE_BLOCK_SIZE : Nat := 128 * 1024 * 1024

/-- From src/infra.rs `File::open_writable`, for a freshly created file:
the file is truncated to the aligned length (zero-filled). -/
def File.open_writable (a len cache_capacity cache_block_size : Nat) :
    Except String FileM :=
  if len = 0 then .error "len must be greater than zero"
  else
    match Cache.with_capacity cache_capacity with
    | .error e => .error e
    | .ok c =>
      .ok { data := List.replicate (align_add a len) 0, cache := c,
            writable := true,
            cache_block_size := fix_cache_block_size a cache_block_size,
            nextPtr := 0 }

/-- From src/infra.rs `File::open_readonly`: an empty file is rejected;
`data` is the current file content. -/
def File.open_readonly (a : Nat) (data : List Nat)
    (cache_capacity cache_block_size : Nat) : Except String FileM :=
  if data.length = 0 then .error "file is empty"
  else
    match Cache.with_capacity cache_capacity with
    | .error e => .error e
    | .ok c =>
      .ok { data := data, cache := c, writable := false,
            cache_block_size := fix_cache_block_size a cache_block_size,
            nextPtr := 0 }

/-- From src/lib.rs `FileMut::with_cache`. -/
def FileMut.with_cache (a len cache_capacity cache_block_size : Nat) :
    Except String FileM :=
  File.open_writable a len cache_capacity cache_block_size

/-- From src/lib.rs `FileMut::new`: delegates to `with_cache` with the
default capacity and block size, in that order. -/
def FileMut.new (a len : Nat) : Except String FileM :=
  FileMut.with_cache a len DEFAULT_CACHE_CAPACITY DEFAULT_CACHE_BLOCK_SIZE

/-- From src/lib.rs `FileRef::with_cache(path, cache_capacity,
cache_block_size)`. -/
def FileRef.with_cache (a : Nat) (data : List Nat)
    (cache_capacity cache_block_size : Nat) : Except String FileM :=
  File.open_readonly a data cache_capacity cache_block_size

/-- From src/lib.rs `FileRef::new`, which calls `Self::with_cache(path,
DEFAULT_CACHE_BLOCK_SIZE, DEFAULT_CACHE_CAPACITY)` — the literal
argument order of the source. -/
def FileRef.new (a : Nat) (data : List Nat) : Except String FileM :=
  FileRef.with_cache a data DEFAULT_CACHE_BLOCK_SIZE DEFAULT_CACHE_CAPACITY

/-- One client-visible cache operation, for quantifying over arbitrary
operation sequences: a `take` resolved by `or_fetch` with the given raw
view on a miss, the drop of a `ViewRef`, a `take_mut` resolved the same
way, and the drop of a `ViewMut`. -/
inductive CacheOp where
  | take (off len : Nat) (rv : RawView)
  | dropRef (v : ViewRefData)
  | takeMut (off len : Nat) (rv : RawView)
  | dropMut
deriving Repr, DecidableEq

/-- Apply one operation to the cache, returning the new cache state and
the removal events it produced.  Assertion failures leave the cache
unchanged (in the source the assertion failure would abort instead). -/
def applyOp (c : Cache) (op : CacheOp) : Cache × List (CachedBlock × Bool) :=
  match op with
  | .take off len rv =>
    match c.take off len with
    | (c1, some _) => (c1, [])
    | (_, none) => ((c.add_fetched_ref rv off len).1, [])
  | .dropRef v => c.restore_ref v
  | .takeMut off len rv =>
    match c.take_mut off len with
    | .error _ => (c, [])
    | .ok (c1, some _) => (c1, [])
    | .ok (c1, none) =>
      match c1.add_fetched_mut rv off len with
      | .error _ => (c1, [])
      | .ok (c2, _) => (c2, [])
  | .dropMut => c.restore_mut

/-- Run a sequence of cache operations. -/
def runOps (c : Cache) (ops : List CacheOp) : Cache :=
  ops.foldl (fun c op => (applyOp c op).1) c

/-- Projection used to observe a constructed facade: its cache capacity
and its cache block size. -/
def capAndBlock (r : Except String FileM) : Option (Nat × Nat) :=
  match r with
  | .error _ => none
  | .ok f => some (f.cache.capacity, f.cache_block_size)

/-- Projection used to observe the dirty flag of the cached block
containing the range `[off, off + len)` after an operation. -/
def dirtyOfBlockContaining (r : Except String FileM) (off len : Nat) :
    Option Bool :=
  match r with
  | .error _ => none
  | .ok f =>
    match (f.cache.available ++ f.cache.lent).find?
        (fun b => b.is_hit off len) with
    | some b => some b.dirty
    | none => none

/-- A 6-byte read-only file iterated with cache block size 2 (alignment
1), exercising three block fetches. -/
def exIterFile : FileM :=
  { data := [1, 2, 3, 4, 5, 6], cache := Cache.init 5, writable := false,
    cache_block_size := 2, nextPtr := 0 }

/-- A 4-byte writable file with alignment 2 and cache block size 2. -/
def exCopyFile : FileM :=
  { data := [10, 11, 12, 13], cache := Cache.init 5, writable := true,
    cache_block_size := 2, nextPtr := 0 }

/-- A 4-byte writable file with cache block size 4, so that overlapping
`copy_within` views land on one block. -/
def exCopySame : FileM :=
  { data := [10, 11, 12, 13], cache := Cache.init 5, writable := true,
    cache_block_size := 4, nextPtr := 0 }

/-- An 8-byte writable file (alignment 2, cache block size 2) before
the cross-mapping scenario. -/
def exCopyWide0 : FileM :=
  { data := [1, 2, 3, 4, 5, 6, 7, 8], cache := Cache.init 5,
    writable := true, cache_block_size := 2, nextPtr := 0 }

/-- The cross-mapping scenario state: `view(0, 4)` fetched the block
`[0, 4)` and the view was dropped, parking the block in `available`.
The following `copy_within(2, 0, 3)` misses on the source (fetching
`[2, 6)`, a second mapping) and hits this block for the destination. -/
def exCopyWide : FileM :=
  match exCopyWide0.view 2 0 4 with
  | .ok fv => { fv.1 with cache := (fv.1.cache.restore_ref fv.2).1 }
  | .error _ => exCopyWide0

/-- Mapping fetched by a `take_mut(0, 2)` miss in the purge scenario. -/
def exRv0 : RawView := { ptr := 100, off := 0, len := 2, writable := true }

/-- Mapping fetched by a `take(0, 3)` miss in the purge scenario. -/
def exRv1 : RawView := { ptr := 101, off := 0, len := 4, writable := false }

/-- Purge scenario, step 1: on a cache of capacity 2, `take_mut(0, 2)`
misses and is resolved by fetching `exRv0`; the new block sits in
`exclusive`. -/
def exPurge1 : Cache :=
  match Cache.add_fetched_mut (Cache.init 2) exRv0 0 2 with
  | .ok cv => cv.1
  | .error _ => Cache.init 2

/-- Purge scenario, step 2: the `ViewMut` is dropped; the block is
marked dirty and moved to `available`. -/
def exPurge2 : Cache := (exPurge1.restore_mut).1

/-- Purge scenario, step 3: `take(0, 3)` misses (the dirty block is too
short) and is resolved by fetching `exRv1` into `lent`. -/
def exPurge3 : Cache × ViewRefData := exPurge2.take 0 3 |>.1.add_fetched_ref exRv1 0 3

/-- Purge scenario, step 4: the `ViewRef` is dropped; `add_available`
purges the overlapping dirty block, producing the removal events. -/
def exPurge4 : Cache × List (CachedBlock × Bool) :=
  exPurge3.1.restore_ref exPurge3.2

/-- The dirty block that the purge scenario removes from the cache. -/
def exDirtyBlock : CachedBlock := { view := exRv0, refs := 0, dirty := true }

/-- A block with no borrows used to populate example caches. -/
def exBlock : CachedBlock :=
  { view := { ptr := 7, off := 0, len := 4, writable := true },
    refs := 0, dirty := false }

/-- A cache whose exclusive slot is occupied while `lent` is empty. -/
def exCacheExclusive : Cache :=
  { available := [], lent := [], exclusive := some exBlock, capacity := 1 }

/-- A cache with one available block covering `[0, 4)`. -/
def exCacheAvail : Cache :=
  { available := [exBlock], lent := [], exclusive := none, capacity := 1 }

/-- A cache with one lent block covering `[0, 4)` with one borrow. -/
def exCacheLent : Cache :=
  { available := [], lent := [{ exBlock with refs := 1 }], exclusive := none,
    capacity := 1 }

/-- The cache `take_mut(0, 4)` on `exCacheAvail` produces: the block
moved from `available` into `exclusive`. -/
def exCacheAfterMut : Cache :=
  { available := [], lent := [], exclusive := some exBlock, capacity := 1 }

/-- The mutable view `take_mut(0, 4)` on `exCacheAvail` mints. -/
def exMutView : ViewMutData :=
  { base_ptr := 7, blockOff := 0, off := 0, len := 4 }

/-- A block whose range `[100, 104)` is disjoint from `exBlock`. -/
def exFarBlock : CachedBlock :=
  { view := { ptr := 9, off := 100, len := 4, writable := false },
    refs := 0, dirty := false }

theorem align_sub_le (a n : Nat) : align_sub a n ≤ n := by
  unfold align_sub
  exact Nat.div_mul_le_self n a

theorem le_align_add (a n : Nat) : n ≤ align_add a n := by
  unfold align_add
  exact Nat.le_add_right _ _

theorem is_hit_iff (b : CachedBlock) (off len : Nat) :
    b.is_hit off len = true ↔
      b.view.off ≤ off ∧ off + len ≤ b.view.off + b.view.len := by
  simp [CachedBlock.is_hit, ge_iff_le]

theorem findLastHit_some_hit {off len : Nat} :
    ∀ {l : List CachedBlock} {i : Nat}, findLastHit off len l = some i →
      ∃ b, l.get? i = some b ∧ b.is_hit off len = true := by
  intro l
  induction l with
  | nil => intro i h; simp [findLastHit] at h
  | cons b rest ih =>
    intro i h
    unfold findLastHit at h
    cases hrest : findLastHit off len rest with
    | some j =>
      rw [hrest] at h
      cases h
      obtain ⟨b', hb', hhit⟩ := ih hrest
      exact ⟨b', by simpa using hb', hhit⟩
    | none =>
      rw [hrest] at h
      by_cases hb : b.is_hit off len = true
      · rw [if_pos hb] at h
        cases h
        exact ⟨b, rfl, hb⟩
      · rw [if_neg hb] at h
        cases h

theorem findLastHit_none {off len : Nat} :
    ∀ {l : List CachedBlock}, findLastHit off len l = none →
      ∀ b ∈ l, b.is_hit off len = false := by
  intro l
  induction l with
  | nil => intro _ b hb; cases hb
  | cons c rest ih =>
    intro h b hb
    unfold findLastHit at h
    cases hrest : findLastHit off len rest with
    | some _ => rw [hrest] at h; cases h
    | none =>
      rw [hrest] at h
      by_cases hc : c.is_hit off len = true
      · rw [if_pos hc] at h; cases h
      · rw [if_neg hc] at h
        rcases List.mem_cons.mp hb with hb | hb
        · subst hb; simpa using hc
        · exact ih hrest b hb

theorem findLastHit_some_last {off len : Nat} :
    ∀ {l : List CachedBlock} {i : Nat}, findLastHit off len l = some i →
      ∀ j b', i < j → l.get? j = some b' → b'.is_hit off len = false := by
  intro l
  induction l with
  | nil => intro i h; simp [findLastHit] at h
  | cons b rest ih =>
    intro i h j b' hij hj
    unfold findLastHit at h
    cases hrest : findLastHit off len rest with
    | some k =>
      rw [hrest] at h
      cases h
      match j, hij with
      | j + 1, hij =>
        exact ih hrest j b' (Nat.lt_of_succ_lt_succ hij) (by simpa using hj)
    | none =>
      rw [hrest] at h
      by_cases hb : b.is_hit off len = true
      · rw [if_pos hb] at h
        cases h
        match j, hij with
        | j + 1, _ =>
          have hmem : b' ∈ rest := List.get?_mem (by simpa using hj)
          exact findLastHit_none hrest b' hmem
      · rw [if_neg hb] at h
        cases h

/-- Claim C7: for every in-bounds request `(off, len)` that misses the
cache, the fetched mapping covers exactly the range from
`align_down(off)` to `min (file length) (max (align_up (off + len))
cache_block_size)`; the fetched range contains the requested range and
never extends past the file length. -/
theorem fetch_range_spec (a flen cbs off len : Nat) (hb : off + len ≤ flen) :
    (fetch_range a flen cbs off len).1 = align_sub a off ∧
    (fetch_range a flen cbs off len).1 + (fetch_range a flen cbs off len).2
      = min (max (align_add a (off + len)) cbs) flen ∧
    (fetch_range a flen cbs off len).1 ≤ off ∧
    off + len ≤
      (fetch_range a flen cbs off len).1 + (fetch_range a flen cbs off len).2 ∧
    (fetch_range a flen cbs off len).1 + (fetch_range a flen cbs off len).2
      ≤ flen := by
  have h1 : align_sub a off ≤ off := align_sub_le a off
  have h2 : off + len ≤ min (max (align_add a (off + len)) cbs) flen :=
    le_min (le_trans (le_align_add a _) (Nat.le_max_left _ _)) hb
  have h4 : align_sub a off ≤ min (max (align_add a (off + len)) cbs) flen :=
    le_trans (le_trans h1 (Nat.le_add_right off len)) h2
  have hsum : (fetch_range a flen cbs off len).1
      + (fetch_range a flen cbs off len).2
      = min (max (align_add a (off + len)) cbs) flen := by
    show align_sub a off
      + (min (max (align_add a (off + len)) cbs) flen - align_sub a off) = _
    exact Nat.add_sub_cancel' h4
  refine ⟨rfl, hsum, h1, ?_, ?_⟩
  · rw [hsum]; exact h2
  · rw [hsum]; exact Nat.min_le_right _ _

/-- Witness for `fetch_range_spec`: alignment 2, file length 4, block
size 2, request `(1, 1)`. -/
theorem fetch_range_spec_witness :
    (fetch_range 2 4 2 1 1).1 = align_sub 2 1 ∧
    (fetch_range 2 4 2 1 1).1 + (fetch_range 2 4 2 1 1).2
      = min (max (align_add 2 (1 + 1)) 2) 4 ∧
    (fetch_range 2 4 2 1 1).1 ≤ 1 ∧
    1 + 1 ≤ (fetch_range 2 4 2 1 1).1 + (fetch_range 2 4 2 1 1).2 ∧
    (fetch_range 2 4 2 1 1).1 + (fetch_range 2 4 2 1 1).2 ≤ 4 :=
  fetch_range_spec 2 4 2 1 1 (by decide)

/-- Claim C10: for a writable file whose current length equals the
aligned new length, `resize` returns Ok without invoking the mapping
layer truncation (the Boolean is `false`) and leaves the file — data
and cache alike — unchanged. -/
theorem resize_noop (a : Nat) (f : FileM) (new_len : Nat)
    (hw : f.writable = true) (h0 : new_len ≠ 0)
    (heq : align_add a new_len = f.flen) :
    FileM.resize a f new_len = .ok (f, false) := by
  simp [FileM.resize, hw, h0, heq]

/-- Witness for `resize_noop`: the 4-byte writable file with alignment
2 resized to 3 (aligned length 4). -/
theorem resize_noop_witness :
    FileM.resize 2 exCopyFile 3 = .ok (exCopyFile, false) :=
  resize_noop 2 exCopyFile 3 rfl (by decide) (by decide)

/-- Claim C2 (refuted): `FileRef::new` passes the default constants to
`with_cache(path, cache_capacity, cache_block_size)` in swapped order,
so the read-only facade gets a cache capacity of 134217728 blocks and a
cache block size of one alignment unit (4096 here) instead of capacity
5 and block size 128 MiB.  `FileMut::new` passes them correctly. -/
theorem fileRef_new_swapped_defaults :
    capAndBlock (FileRef.new 4096 [1]) = some (134217728, 4096) ∧
    (134217728, 4096)
      ≠ (DEFAULT_CACHE_CAPACITY, align_add 4096 DEFAULT_CACHE_BLOCK_SIZE) ∧
    capAndBlock (FileMut.new 4096 1) = some (5, 134217728) := by
  refine ⟨by decide, by decide, by decide⟩

/-- Claim C1 (refuted): iterating the 6-byte file `[1, 2, 3, 4, 5, 6]`
with cache block size 2 yields `[1, 2, 3, 4, 3, 4]`, not the file's
bytes: after the second view is exhausted, `Iter::next` fetches the
next view at the within-view cursor `cur` (2) instead of the cumulative
position `cum` (4), re-yielding bytes 3 and 4. -/
theorem iter_skips_bytes :
    (iterBytes 1 exIterFile).toOption = some [1, 2, 3, 4, 3, 4] ∧
    (iterBytes 1 exIterFile).toOption ≠ some exIterFile.data := by
  refine ⟨by decide, by decide⟩

/-- Claim C4 (refuted): after `copy_within(0, 1, 1)` on a writable
4-byte file, the bytes are copied but the cached block containing the
destination range `[1, 2)` has its dirty flag still `false`: the write
goes through a `ViewRef`, and only a `ViewMut` drop sets the dirty
flag. -/
theorem copy_within_destination_not_dirty :
    dirtyOfBlockContaining (FileM.copy_within 2 false exCopyFile 0 1 1) 1 1
      = some false ∧
    dirtyOfBlockContaining (FileM.copy_within 2 true exCopyFile 0 1 1) 1 1
      = some false ∧
    (FileM.copy_within 2 false exCopyFile 0 1 1).toOption.map FileM.data
      = some [10, 10, 12, 13] ∧
    (FileM.copy_within 2 true exCopyFile 0 1 1).toOption.map FileM.data
      = some [10, 10, 12, 13] := by
  refine ⟨by decide, by decide, by decide, by decide⟩

/-- Claim C3, counterexample: a block made dirty by a `ViewMut` drop
sits in `available`; a later `ViewRef` drop of an overlapping block
purges it, and the removal event records that no flush was performed
even though the block is dirty. -/
theorem dirty_block_purged_unflushed :
    exPurge2.available = [exDirtyBlock] ∧
    exPurge4.2 = [(exDirtyBlock, false)] ∧
    exDirtyBlock.dirty = true := by
  refine ⟨by decide, by decide, by decide⟩

theorem add_available_cases (c : Cache) (b : CachedBlock)
    (hcap : 1 ≤ c.capacity) :
    ((c.kept b).length < c.capacity ∧
      (c.add_available b).1 = { c with available := c.kept b ++ [b] } ∧
      (c.add_available b).2 = (c.purged b).map fun x => (x, false)) ∨
    (c.capacity ≤ (c.kept b).length ∧ ∃ d rest, c.kept b = d :: rest ∧
      (c.add_available b).1 = { c with available := rest ++ [b] } ∧
      (c.add_available b).2 =
        ((c.purged b).map fun x => (x, false)) ++ [(d, d.dirty)]) := by
  by_cases h : (c.kept b).length < c.capacity
  · left
    refine ⟨h, ?_, ?_⟩ <;> simp [Cache.add_available, h]
  · right
    have h2 : c.capacity ≤ (c.kept b).length := Nat.le_of_not_lt h
    obtain ⟨d, rest, hk⟩ : ∃ d rest, c.kept b = d :: rest := by
      cases hck : c.kept b with
      | nil => exfalso; rw [hck] at h2; simp at h2; omega
      | cons d rest => exact ⟨d, rest, rfl⟩
    have h3 : ¬(rest.length + 1 < c.capacity) := by
      rw [hk] at h
      simpa using h
    refine ⟨h2, d, rest, hk, ?_, ?_⟩ <;>
      simp [Cache.add_available, hk, h3, CachedBlock.flush_performed]

theorem add_available_len (c : Cache) (b : CachedBlock)
    (hcap : 1 ≤ c.capacity) (hlen : c.available.length ≤ c.capacity) :
    (c.add_available b).1.available.length ≤ c.capacity ∧
    (c.add_available b).1.capacity = c.capacity := by
  have hkle : (c.kept b).length ≤ c.available.length :=
    List.length_filter_le _ _
  rcases add_available_cases c b hcap with ⟨h, hav, _⟩ | ⟨h, d, rest, hk, hav, _⟩
  · refine ⟨?_, by rw [hav]⟩
    rw [hav]
    show (c.kept b ++ [b]).length ≤ c.capacity
    simp only [List.length_append, List.length_singleton]
    omega
  · refine ⟨?_, by rw [hav]⟩
    rw [hav]
    have hr : (c.kept b).length = rest.length + 1 := by rw [hk]; simp
    show (rest ++ [b]).length ≤ c.capacity
    simp only [List.length_append, List.length_singleton]
    omega

theorem acquire_available_some {c : Cache} {off len : Nat}
    {b : CachedBlock} {c1 : Cache}
    (h : c.acquire_available off len = some (b, c1)) :
    ∃ i, findLastHit off len c.available = some i ∧
      c.available.get? i = some b ∧
      c1 = { c with available := c.available.eraseIdx i } ∧
      b.is_hit off len = true := by
  unfold Cache.acquire_available at h
  split at h
  next i hf =>
    split at h
    next b2 hg =>
      cases h
      obtain ⟨b3, hb3, hhit⟩ := findLastHit_some_hit hf
      rw [hg] at hb3
      cases hb3
      exact ⟨i, hf, hg, rfl, hhit⟩
    next hg => cases h
  next hf => cases h

theorem view_mut_ok {b : CachedBlock} {off len : Nat} {v : ViewMutData}
    (h : b.view_mut off len = .ok v) :
    b.refs = 0 ∧ v = { base_ptr := b.view.ptr, blockOff := b.view.off,
                       off := off - b.view.off, len := len } := by
  unfold CachedBlock.view_mut at h
  split at h
  · cases h
  next hrefs =>
    cases h
    exact ⟨not_not.mp hrefs, rfl⟩

theorem acquire_available_none {c : Cache} {off len : Nat}
    (h : findLastHit off len c.available = none) :
    c.acquire_available off len = none := by
  simp only [Cache.acquire_available, h]

theorem acquire_available_of_find {c : Cache} {off len i : Nat}
    {b : CachedBlock} (hf : findLastHit off len c.available = some i)
    (hg : c.available.get? i = some b) :
    c.acquire_available off len =
      some (b, { c with available := c.available.eraseIdx i }) := by
  simp only [Cache.acquire_available, hf, hg]

/-- Claim C3, amended: within `add_available`, a flush is performed only
for the block popped from the front of `available` at capacity, and
exactly when that block is dirty; blocks removed by the overlap purge
are unmapped without a flush even when dirty. -/
theorem add_available_flush_policy (c : Cache) (b : CachedBlock)
    (hcap : 1 ≤ c.capacity) :
    (∀ e ∈ (c.add_available b).2, e.2 = true → e.1.dirty = true) ∧
    ((c.kept b).length < c.capacity →
      (c.add_available b).2 = (c.purged b).map fun x => (x, false)) ∧
    (c.capacity ≤ (c.kept b).length →
      ∃ d rest, c.kept b = d :: rest ∧
        (c.add_available b).2 =
          ((c.purged b).map fun x => (x, false)) ++ [(d, d.dirty)]) := by
  rcases add_available_cases c b hcap with
    ⟨h, _, hev⟩ | ⟨h, d, rest, hk, _, hev⟩
  · refine ⟨?_, fun _ => hev, fun h2 => absurd h (by omega)⟩
    intro e he htrue
    rw [hev] at he
    obtain ⟨x, _, hx⟩ := List.mem_map.mp he
    rw [← hx] at htrue
    cases htrue
  · refine ⟨?_, fun h2 => absurd h2 (by omega), fun _ => ⟨d, rest, hk, hev⟩⟩
    intro e he htrue
    rw [hev] at he
    rcases List.mem_append.mp he with he | he
    · obtain ⟨x, _, hx⟩ := List.mem_map.mp he
      rw [← hx] at htrue
      cases htrue
    · have : e = (d, d.dirty) := by simpa using he
      rw [this] at htrue ⊢
      exact htrue

/-- Witness for `add_available_flush_policy`: the purge scenario cache
receiving the dirty block back (capacity 2, one kept block). -/
theorem add_available_flush_policy_witness :
    (∀ e ∈ (exPurge2.add_available exDirtyBlock).2, e.2 = true →
      e.1.dirty = true) ∧
    ((exPurge2.kept exDirtyBlock).length < exPurge2.capacity →
      (exPurge2.add_available exDirtyBlock).2 =
        (exPurge2.purged exDirtyBlock).map fun x => (x, false)) ∧
    (exPurge2.capacity ≤ (exPurge2.kept exDirtyBlock).length →
      ∃ d rest, exPurge2.kept exDirtyBlock = d :: rest ∧
        (exPurge2.add_available exDirtyBlock).2 =
          ((exPurge2.purged exDirtyBlock).map fun x => (x, false))
          ++ [(d, d.dirty)]) :=
  add_available_flush_policy exPurge2 exDirtyBlock (by decide)

/-- Claim C9, counterexample: a cache state whose `exclusive` slot is
occupied but whose `lent` set is empty; `take_mut` succeeds without any
assertion failure, so `take_mut` does not assert that the exclusive
slot is `None` (that part of the discipline is enforced only by the
exclusive-reference requirement of the Rust API). -/
theorem take_mut_ignores_exclusive :
    Cache.take_mut exCacheExclusive 0 1 = .ok (exCacheExclusive, none) ∧
    exCacheExclusive.exclusive ≠ none := by
  refine ⟨rfl, by decide⟩

/-- Claim C9, amended: `take_mut` asserts (only) that the lent set is
empty; when it returns a mutable view, the lent set was empty, the
chosen block's borrow count is zero (asserted in `view_mut`), the block
contains the request, and it now occupies the exclusive slot — hence a
`ViewMut` is never minted while any `ViewRef` is outstanding. -/
theorem take_mut_spec (c : Cache) (off len : Nat) :
    (c.lent ≠ [] →
      c.take_mut off len = .error "assertion failed: lent is empty") ∧
    (∀ c2 v, c.take_mut off len = .ok (c2, some v) →
      c.lent = [] ∧ ∃ b, c2.exclusive = some b ∧ b.refs = 0 ∧
        b.view.off ≤ off ∧ off + len ≤ b.view.off + b.view.len ∧
        v = { base_ptr := b.view.ptr, blockOff := b.view.off,
              off := off - b.view.off, len := len }) := by
  constructor
  · intro h
    have hne : c.lent.length ≠ 0 := by
      simpa [List.length_eq_zero] using h
    simp [Cache.take_mut, hne]
  · intro c2 v h
    unfold Cache.take_mut at h
    split at h
    · exact absurd h (by simp)
    next hne =>
      have hlent : c.lent = [] :=
        List.length_eq_zero.mp (not_not.mp hne)
      refine ⟨hlent, ?_⟩
      split at h
      next b1 c1 hacq =>
        obtain ⟨i, hf, hg, hc1, hhit⟩ := acquire_available_some hacq
        split at h
        · exact absurd h (by simp)
        next vm hvm =>
          obtain ⟨hrefs, hvm2⟩ := view_mut_ok hvm
          simp only [Except.ok.injEq, Prod.mk.injEq, Option.some.injEq] at h
          obtain ⟨hc2, hv⟩ := h
          obtain ⟨hA, hB⟩ := (is_hit_iff _ _ _).mp hhit
          refine ⟨b1, ?_, hrefs, hA, hB, ?_⟩
          · rw [← hc2]
          · rw [← hv, hvm2]
      next hacq =>
        simp at h

/-- Witness for `take_mut_spec`: the nonempty-lent cache errors out, and
a successful `take_mut(0, 4)` on the one-available-block cache reports
an empty lent set and a zero-borrow exclusive block. -/
theorem take_mut_spec_witness :
    Cache.take_mut exCacheLent 0 1
      = .error "assertion failed: lent is empty" ∧
    (exCacheAvail.lent = [] ∧ ∃ b, exCacheAfterMut.exclusive = some b ∧
      b.refs = 0 ∧ b.view.off ≤ 0 ∧ 0 + 4 ≤ b.view.off + b.view.len ∧
      exMutView = { base_ptr := b.view.ptr, blockOff := b.view.off,
                    off := 0 - b.view.off, len := 4 }) :=
  ⟨(take_mut_spec exCacheLent 0 1).1 (by decide),
   (take_mut_spec exCacheAvail 0 4).2 exCacheAfterMut exMutView rfl⟩

/-- Claim C5: `take(off, len)` first searches `available` in reverse
insertion order for a block with `B.off ≤ off` and `B.off + B.len ≥ off
+ len`; on a hit the block moves from `available` to `lent`, its borrow
counter is incremented and the minted `ViewRef` has inner offset `off -
B.off` and inner length `len`.  Otherwise `lent` is searched in reverse
order and a hit only increments the borrow counter and mints a second
view of the same block.  Otherwise an empty token is returned (the
cache unchanged), and resolving it by a fetch pushes the new block into
`lent` with borrow count 1. -/
theorem cache_take_spec (c : Cache) (off len : Nat) :
    (∀ i b, findLastHit off len c.available = some i →
      c.available.get? i = some b →
      (b.view.off ≤ off ∧ off + len ≤ b.view.off + b.view.len) ∧
      (∀ j b2, i < j → c.available.get? j = some b2 →
        b2.is_hit off len = false) ∧
      c.take off len =
        ({ c with available := c.available.eraseIdx i,
                  lent := c.lent ++ [{ b with refs := b.refs + 1 }] },
         some { base_ptr := b.view.ptr, blockOff := b.view.off,
                off := off - b.view.off, len := len })) ∧
    (findLastHit off len c.available = none →
      ∀ i b, findLastHit off len c.lent = some i →
      c.lent.get? i = some b →
      (b.view.off ≤ off ∧ off + len ≤ b.view.off + b.view.len) ∧
      (∀ j b2, i < j → c.lent.get? j = some b2 →
        b2.is_hit off len = false) ∧
      c.take off len =
        ({ c with lent := c.lent.set i { b with refs := b.refs + 1 } },
         some { base_ptr := b.view.ptr, blockOff := b.view.off,
                off := off - b.view.off, len := len })) ∧
    (findLastHit off len c.available = none →
      findLastHit off len c.lent = none →
      c.take off len = (c, none) ∧
      ∀ rv, c.add_fetched_ref rv off len =
        ({ c with lent :=
            c.lent ++ [{ view := rv, refs := 1, dirty := false }] },
         { base_ptr := rv.ptr, blockOff := rv.off, off := off - rv.off,
           len := len })) := by
  refine ⟨?_, ?_, ?_⟩
  · intro i b hf hg
    have hacq := acquire_available_of_find hf hg
    obtain ⟨b3, hb3, hhit⟩ := findLastHit_some_hit hf
    rw [hg] at hb3
    cases hb3
    obtain ⟨hA, hB⟩ := (is_hit_iff _ _ _).mp hhit
    refine ⟨⟨hA, hB⟩,
      fun j b2 hij hj => findLastHit_some_last hf j b2 hij hj, ?_⟩
    simp only [Cache.take, hacq, CachedBlock.view_ref]
  · intro h0 i b hf hg
    have hacq := acquire_available_none h0
    obtain ⟨b3, hb3, hhit⟩ := findLastHit_some_hit hf
    rw [hg] at hb3
    cases hb3
    obtain ⟨hA, hB⟩ := (is_hit_iff _ _ _).mp hhit
    refine ⟨⟨hA, hB⟩,
      fun j b2 hij hj => findLastHit_some_last hf j b2 hij hj, ?_⟩
    simp only [Cache.take, hacq, hf, hg, CachedBlock.view_ref]
  · intro h0 h1
    constructor
    · simp only [Cache.take, acquire_available_none h0, h1]
    · intro rv
      simp only [Cache.add_fetched_ref, CachedBlock.new,
        CachedBlock.view_ref]

/-- Witness for `cache_take_spec`: all three arms at concrete caches —
an available hit, a lent hit, and a miss resolved by a fetch. -/
theorem cache_take_spec_witness :
    (Cache.take exCacheAvail 0 4 =
      ({ available := [], lent := [{ exBlock with refs := 1 }],
         exclusive := none, capacity := 1 },
       some { base_ptr := 7, blockOff := 0, off := 0, len := 4 })) ∧
    (Cache.take exCacheLent 0 4 =
      ({ available := [], lent := [{ exBlock with refs := 2 }],
         exclusive := none, capacity := 1 },
       some { base_ptr := 7, blockOff := 0, off := 0, len := 4 })) ∧
    (Cache.take (Cache.init 1) 0 4 = (Cache.init 1, none)) ∧
    (Cache.add_fetched_ref (Cache.init 1) exRv1 0 4 =
      ({ available := [],
         lent := [{ view := exRv1, refs := 1, dirty := false }],
         exclusive := none, capacity := 1 },
       { base_ptr := 101, blockOff := 0, off := 0, len := 4 })) := by
  refine ⟨?_, ?_, ?_, ?_⟩
  · exact ((cache_take_spec exCacheAvail 0 4).1 0 exBlock rfl rfl).2.2
  · exact ((cache_take_spec exCacheLent 0 4).2.1 rfl 0
      { exBlock with refs := 1 } rfl rfl).2.2
  · exact ((cache_take_spec (Cache.init 1) 0 4).2.2 rfl rfl).1
  · exact ((cache_take_spec (Cache.init 1) 0 4).2.2 rfl rfl).2 exRv1

theorem take_shape (c : Cache) (off len : Nat) :
    (c.take off len).1.capacity = c.capacity ∧
    ((c.take off len).1.available = c.available ∨
      ∃ i, (c.take off len).1.available = c.available.eraseIdx i) := by
  unfold Cache.take
  split
  next b c1 hacq =>
    obtain ⟨i, hf, hg, hc1, hhit⟩ := acquire_available_some hacq
    subst hc1
    exact ⟨rfl, Or.inr ⟨i, rfl⟩⟩
  next hacq =>
    split
    next i hf =>
      split
      next b hg => exact ⟨rfl, Or.inl rfl⟩
      next => exact ⟨rfl, Or.inl rfl⟩
    next => exact ⟨rfl, Or.inl rfl⟩

theorem restore_ref_inv (c : Cache) (v : ViewRefData) (hcap : 1 ≤ c.capacity)
    (hlen : c.available.length ≤ c.capacity) :
    (c.restore_ref v).1.capacity = c.capacity ∧
    (c.restore_ref v).1.available.length ≤ c.capacity := by
  unfold Cache.restore_ref
  split
  next => exact ⟨rfl, hlen⟩
  next i hidx =>
    split
    next => exact ⟨rfl, hlen⟩
    next b hg =>
      split
      next hrefs =>
        have h := add_available_len { c with lent := c.lent.eraseIdx i }
          { b with refs := 0 } hcap hlen
        exact ⟨h.2, h.1⟩
      next => exact ⟨rfl, hlen⟩

theorem take_mut_shape (c : Cache) (off len : Nat) :
    ∀ c2 ov, c.take_mut off len = .ok (c2, ov) →
      c2.capacity = c.capacity ∧
      (c2.available = c.available ∨
        ∃ i, c2.available = c.available.eraseIdx i) := by
  intro c2 ov h
  unfold Cache.take_mut at h
  split at h
  · cases h
  next =>
    split at h
    next b1 c1 hacq =>
      split at h
      · cases h
      next vm hvm =>
        obtain ⟨i, hf, hg, hc1, _⟩ := acquire_available_some hacq
        cases h
        subst hc1
        exact ⟨rfl, Or.inr ⟨i, rfl⟩⟩
    next hacq =>
      cases h
      exact ⟨rfl, Or.inl rfl⟩

theorem add_fetched_mut_shape (c : Cache) (rv : RawView) (off len : Nat) :
    ∀ c2 vm, c.add_fetched_mut rv off len = .ok (c2, vm) →
      c2.available = c.available ∧ c2.capacity = c.capacity := by
  intro c2 vm h
  simp only [Cache.add_fetched_mut, CachedBlock.view_mut, CachedBlock.new,
    ne_eq, not_true_eq_false, if_false, ite_false, if_neg,
    Except.ok.injEq, Prod.mk.injEq] at h
  obtain ⟨hc2, -⟩ := h
  rw [← hc2]
  exact ⟨rfl, rfl⟩

theorem restore_mut_inv (c : Cache) (hcap : 1 ≤ c.capacity)
    (hlen : c.available.length ≤ c.capacity) :
    (c.restore_mut).1.capacity = c.capacity ∧
    (c.restore_mut).1.available.length ≤ c.capacity := by
  cases hx : c.exclusive with
  | none =>
    constructor
    · simp [Cache.restore_mut, hx]
    · simp only [Cache.restore_mut, hx]
      exact hlen
  | some b =>
    simp only [Cache.restore_mut, hx]
    have h := add_available_len { c with exclusive := none }
      { b with dirty := true } hcap hlen
    exact ⟨h.2, h.1⟩

theorem length_eraseIdx_le (l : List CachedBlock) (i : Nat) :
    (l.eraseIdx i).length ≤ l.length := by
  rw [List.length_eraseIdx]
  split <;> omega

theorem applyOp_inv (c : Cache) (op : CacheOp) (hcap : 1 ≤ c.capacity)
    (hlen : c.available.length ≤ c.capacity) :
    (applyOp c op).1.capacity = c.capacity ∧
    (applyOp c op).1.available.length ≤ c.capacity := by
  cases op with
  | take off len rv =>
    simp only [applyOp]
    split
    next c1 v hc1 =>
      have hs := take_shape c off len
      rw [hc1] at hs
      rcases hs with ⟨hcapEq, hav | ⟨i, hav⟩⟩
      · exact ⟨hcapEq, by rw [hav]; exact hlen⟩
      · have hle := length_eraseIdx_le c.available i
        exact ⟨hcapEq, by rw [hav]; omega⟩
    next hc1 => exact ⟨rfl, hlen⟩
  | dropRef v =>
    simp only [applyOp]
    exact restore_ref_inv c v hcap hlen
  | takeMut off len rv =>
    simp only [applyOp]
    split
    next => exact ⟨rfl, hlen⟩
    next c1 v hc1 =>
      obtain ⟨hcapEq, hav | ⟨i, hav⟩⟩ := take_mut_shape c off len c1 (some v) hc1
      · exact ⟨hcapEq, by rw [hav]; exact hlen⟩
      · have hle := length_eraseIdx_le c.available i
        exact ⟨hcapEq, by rw [hav]; omega⟩
    next c1 hc1 =>
      obtain ⟨hcapEq, hav1⟩ := take_mut_shape c off len c1 none hc1
      split
      next =>
        rcases hav1 with hav | ⟨i, hav⟩
        · exact ⟨hcapEq, by rw [hav]; exact hlen⟩
        · have hle := length_eraseIdx_le c.available i
          exact ⟨hcapEq, by rw [hav]; omega⟩
      next c2 vm hc2 =>
        obtain ⟨hav2, hcap2⟩ := add_fetched_mut_shape c1 rv off len c2 vm hc2
        rcases hav1 with hav | ⟨i, hav⟩
        · refine ⟨by rw [hcap2, hcapEq], ?_⟩
          rw [hav2, hav]
          exact hlen
        · have hle := length_eraseIdx_le c.available i
          refine ⟨by rw [hcap2, hcapEq], ?_⟩
          rw [hav2, hav]
          omega
  | dropMut =>
    simp only [applyOp]
    exact restore_mut_inv c hcap hlen

theorem runOps_inv (C : Nat) (hC : 1 ≤ C) :
    ∀ (ops : List CacheOp) (c : Cache), c.capacity = C →
      c.available.length ≤ C →
      (runOps c ops).capacity = C ∧ (runOps c ops).available.length ≤ C := by
  intro ops
  induction ops with
  | nil => intro c h1 h2; exact ⟨h1, h2⟩
  | cons op rest ih =>
    intro c h1 h2
    have h := applyOp_inv c op (by omega) (by omega)
    have hstep : runOps c (op :: rest) = runOps (applyOp c op).1 rest := rfl
    rw [hstep]
    exact ih (applyOp c op).1 (by omega) (by omega)

/-- Claim C6: starting from a cache of capacity `C ≥ 1`, the number of
blocks in `available` never exceeds `C` across any sequence of
operations; `add_available` grows `available` when (after the overlap
purge) it holds fewer than `C` blocks, and otherwise pops the oldest
(front) block — flushing it exactly when dirty — before pushing the new
block at the back. -/
theorem cache_capacity_bound (C : Nat) (hC : 1 ≤ C) :
    (∀ ops : List CacheOp,
      (runOps (Cache.init C) ops).available.length ≤ C) ∧
    (∀ (c : Cache) (b : CachedBlock), c.capacity = C →
      ((c.kept b).length < C →
        (c.add_available b).1.available = c.kept b ++ [b]) ∧
      (C ≤ (c.kept b).length →
        ∃ d rest, c.kept b = d :: rest ∧
          (c.add_available b).1.available = rest ++ [b] ∧
          (c.add_available b).2 =
            ((c.purged b).map fun x => (x, false)) ++ [(d, d.dirty)])) := by
  constructor
  · intro ops
    exact (runOps_inv C hC ops (Cache.init C) rfl (by simp [Cache.init])).2
  · intro c b hcapC
    have hcap : 1 ≤ c.capacity := by omega
    rcases add_available_cases c b hcap with
      ⟨h, hav, hev⟩ | ⟨h, d, rest, hk, hav, hev⟩
    · refine ⟨fun _ => by rw [hav], fun h2 => absurd h2 (by omega)⟩
    · refine ⟨fun h2 => absurd h2 (by omega),
        fun _ => ⟨d, rest, hk, by rw [hav], hev⟩⟩

/-- Witness for `cache_capacity_bound`: capacity 1, a one-operation
sequence, and both `add_available` regimes at concrete caches. -/
theorem cache_capacity_bound_witness :
    (runOps (Cache.init 1) [CacheOp.take 0 4 exRv1]).available.length ≤ 1 ∧
    (exCacheAvail.add_available exDirtyBlock).1.available
      = exCacheAvail.kept exDirtyBlock ++ [exDirtyBlock] ∧
    ∃ d rest, exCacheAvail.kept exFarBlock = d :: rest ∧
      (exCacheAvail.add_available exFarBlock).1.available = rest ++ [exFarBlock] ∧
      (exCacheAvail.add_available exFarBlock).2 =
        ((exCacheAvail.purged exFarBlock).map fun x => (x, false))
        ++ [(d, d.dirty)] :=
  ⟨(cache_capacity_bound 1 (by decide)).1 [CacheOp.take 0 4 exRv1],
   ((cache_capacity_bound 1 (by decide)).2 exCacheAvail exDirtyBlock rfl).1
     (by decide),
   ((cache_capacity_bound 1 (by decide)).2 exCacheAvail exFarBlock rfl).2
     (by decide)⟩

theorem take_some_view {c : Cache} {off len : Nat} {c2 : Cache}
    {v : ViewRefData} (h : c.take off len = (c2, some v)) :
    v.blockOff + v.off = off ∧ v.len = len := by
  unfold Cache.take at h
  split at h
  next b c1 hacq =>
    obtain ⟨i, hf, hg, hc1, hhit⟩ := acquire_available_some hacq
    simp only [Prod.mk.injEq, Option.some.injEq] at h
    obtain ⟨-, hv⟩ := h
    obtain ⟨hA, -⟩ := (is_hit_iff _ _ _).mp hhit
    rw [← hv]
    refine ⟨?_, rfl⟩
    show b.view.off + (off - b.view.off) = off
    omega
  next hacq =>
    split at h
    next i hf =>
      split at h
      next b hg =>
        obtain ⟨b3, hb3, hhit⟩ := findLastHit_some_hit hf
        rw [hg] at hb3
        cases hb3
        simp only [Prod.mk.injEq, Option.some.injEq] at h
        obtain ⟨-, hv⟩ := h
        obtain ⟨hA, -⟩ := (is_hit_iff _ _ _).mp hhit
        rw [← hv]
        refine ⟨?_, rfl⟩
        show b.view.off + (off - b.view.off) = off
        omega
      next hg => simp at h
    next hf => simp at h

theorem takeOrFetch_data (a : Nat) (f : FileM) (off len : Nat) :
    ((f.takeOrFetch a off len).1).data = f.data := by
  unfold FileM.takeOrFetch
  split
  next c v heq => rfl
  next heq => rfl

theorem takeOrFetch_pos (a : Nat) (f : FileM) (off len : Nat) :
    (f.takeOrFetch a off len).2.blockOff + (f.takeOrFetch a off len).2.off
      = off ∧
    (f.takeOrFetch a off len).2.len = len := by
  unfold FileM.takeOrFetch
  split
  next c v heq => exact take_some_view heq
  next heq =>
    constructor
    · show (fetch_range a f.flen f.cache_block_size off len).1
        + (off - (fetch_range a f.flen f.cache_block_size off len).1) = off
      have h1 := align_sub_le a off
      have h2 : (fetch_range a f.flen f.cache_block_size off len).1
          = align_sub a off := rfl
      omega
    · rfl

theorem memcopy_length (data : List Nat) (s d n : Nat) :
    (memcopy data s d n).length = data.length := by
  simp [memcopy]

theorem memcopy_getD (data : List Nat) (s d n j : Nat)
    (hj : j < data.length) :
    (memcopy data s d n).getD j 0 =
      if d ≤ j ∧ j < d + n then data.getD (s + (j - d)) 0
      else data.getD j 0 := by
  unfold memcopy
  rw [List.getD_eq_get?, List.get?_map, List.get?_range hj]
  simp

theorem copyForward_length :
    ∀ (n : Nat) (data : List Nat) (s d : Nat),
      (copyForward data s d n).length = data.length := by
  intro n
  induction n with
  | zero => intro data s d; rfl
  | succ m ih =>
    intro data s d
    show (copyForward (data.set d (data.getD s 0)) (s + 1) (d + 1) m).length
      = data.length
    rw [ih, List.length_set]

theorem copyForward_getD :
    ∀ (n : Nat) (data : List Nat) (s d : Nat),
      (s + n ≤ d ∨ d + n ≤ s) → s + n ≤ data.length → d + n ≤ data.length →
      ∀ j, (copyForward data s d n).getD j 0 =
        if d ≤ j ∧ j < d + n then data.getD (s + (j - d)) 0
        else data.getD j 0 := by
  intro n
  induction n with
  | zero =>
    intro data s d hdisj hs hd j
    show data.getD j 0 = _
    rw [if_neg (by omega)]
  | succ m ih =>
    intro data s d hdisj hs hd j
    show (copyForward (data.set d (data.getD s 0)) (s + 1) (d + 1) m).getD j 0
      = _
    have hlen2 : (data.set d (data.getD s 0)).length = data.length :=
      List.length_set data d _
    rw [ih (data.set d (data.getD s 0)) (s + 1) (d + 1) (by omega)
      (by omega) (by omega) j]
    by_cases hcase : d + 1 ≤ j ∧ j < d + 1 + m
    · rw [if_pos hcase, if_pos (by omega)]
      have harg : s + 1 + (j - (d + 1)) = s + (j - d) := by omega
      rw [harg]
      have hne : d ≠ s + (j - d) := by omega
      rw [List.getD_eq_get?, List.getD_eq_get?, List.get?_set_ne _ _ hne]
      exact (List.getD_eq_get? _ _ _).symm
    · rw [if_neg hcase]
      by_cases hj : j = d
      · subst hj
        rw [if_pos (by omega)]
        have hset : (data.set j (data.getD s 0)).getD j 0 = data.getD s 0 := by
          rw [List.getD_eq_get?, List.get?_set_eq_of_lt _ (by omega)]
          rfl
        rw [hset]
        have : s + (j - j) = s := by omega
        rw [this]
      · rw [if_neg (by omega)]
        have hne : d ≠ j := fun hdj => hj hdj.symm
        rw [List.getD_eq_get?, List.getD_eq_get?, List.get?_set_ne _ _ hne]
        exact (List.getD_eq_get? _ _ _).symm

theorem copy_core_spec (dataF : List Nat) (sameBlock backward : Bool)
    (src dst count : Nat)
    (hs : src + count ≤ dataF.length) (hd : dst + count ≤ dataF.length)
    (hsafe : sameBlock = true ∨ src + count ≤ dst ∨ dst + count ≤ src) :
    ((if (src ≥ dst && src < dst + count) || (dst ≥ src && dst < src + count)
      then
        if sameBlock then memcopy dataF src dst count
        else if backward then copyBackward dataF src dst count
        else copyForward dataF src dst count
      else copyForward dataF src dst count).length = dataF.length) ∧
    (∀ j, j < dataF.length →
      (if (src ≥ dst && src < dst + count) || (dst ≥ src && dst < src + count)
       then
         if sameBlock then memcopy dataF src dst count
         else if backward then copyBackward dataF src dst count
         else copyForward dataF src dst count
       else copyForward dataF src dst count).getD j 0 =
        if dst ≤ j ∧ j < dst + count then dataF.getD (src + (j - dst)) 0
        else dataF.getD j 0) := by
  by_cases hb : ((src ≥ dst && src < dst + count)
      || (dst ≥ src && dst < src + count)) = true
  · rw [if_pos hb]
    have hsb : sameBlock = true := by
      rcases hsafe with h | h
      · exact h
      · exfalso
        simp only [Bool.or_eq_true, Bool.and_eq_true, decide_eq_true_eq,
          ge_iff_le] at hb
        omega
    rw [hsb, if_pos rfl]
    exact ⟨memcopy_length dataF src dst count,
      fun j hj => memcopy_getD dataF src dst count j hj⟩
  · rw [if_neg hb]
    have hb2 : src + count ≤ dst ∨ dst + count ≤ src := by
      simp only [Bool.or_eq_true, Bool.and_eq_true, decide_eq_true_eq,
        ge_iff_le, not_or, not_and, not_lt] at hb
      omega
    exact ⟨copyForward_length count dataF src dst,
      fun j hj => copyForward_getD count dataF src dst hb2 hs hd j⟩

/-- Claim C8, counterexample: a reachable state in which the two views
of `copy_within` come from distinct overlapping mappings.  After
`view(0, 4)` is taken and dropped (block `[0, 4)` in `available`),
`copy_within(src = 2, dst = 0, count = 3)` fetches `[2, 6)` for the
source and hits `[0, 4)` for the destination; the virtual ranges are
disjoint, so the copy direction is unspecified, and the backward
direction clobbers the shared byte at file offset 2 before reading it:
the result differs from the memmove result (which the forward direction
happens to produce). -/
theorem copy_within_clobbers_across_mappings :
    (FileM.copy_within 2 true exCopyWide 2 0 3).toOption.map FileM.data
      = some [5, 4, 5, 4, 5, 6, 7, 8] ∧
    (FileM.copy_within 2 false exCopyWide 2 0 3).toOption.map FileM.data
      = some [3, 4, 5, 4, 5, 6, 7, 8] ∧
    ([5, 4, 5, 4, 5, 6, 7, 8] : List Nat).getD 0 0
      ≠ (if 0 ≤ 0 ∧ 0 < 0 + 3 then exCopyWide.data.getD (2 + (0 - 0)) 0
         else exCopyWide.data.getD 0 0) := by
  refine ⟨by decide, by decide, by decide⟩

/-- Claim C8, amended: for a writable file and in-bounds `src`, `dst`,
`count`, whenever the two views are minted on the same cached block or
the two ranges do not overlap, `copy_within` returns Ok and — for
either copy direction — the file contents equal the memmove result:
bytes `[dst, dst + count)` hold the bytes `[src, src + count)` held
before the call and all other bytes are unchanged; `count = 0` is a
no-op.  (When the ranges overlap across two distinct mappings the
result depends on the unspecified copy direction over the aliased
pages, as the counterexample shows.) -/
theorem copy_within_memmove_cases (a : Nat) (backward : Bool) (f : FileM)
    (src dst count : Nat)
    (hw : f.writable = true) (hs : src + count ≤ f.flen)
    (hd : dst + count ≤ f.flen)
    (hsafe : (f.takeOrFetch a src count).2.base_ptr
        = ((f.takeOrFetch a src count).1.takeOrFetch a dst count).2.base_ptr
      ∨ src + count ≤ dst ∨ dst + count ≤ src) :
    ∃ f2, FileM.copy_within a backward f src dst count = .ok f2 ∧
      f2.data.length = f.data.length ∧
      ∀ j, j < f.data.length →
        f2.data.getD j 0 =
          if dst ≤ j ∧ j < dst + count then f.data.getD (src + (j - dst)) 0
          else f.data.getD j 0 := by
  have hfl : f.flen = f.data.length := rfl
  have h0 : ¬(f.writable ≠ true) := by simp [hw]
  have h1 : ¬(src + count > f.flen) := by omega
  have h2 : ¬(dst + count > f.flen) := by omega
  by_cases hc : count = 0
  · refine ⟨f, ?_, rfl, ?_⟩
    · unfold FileM.copy_within
      rw [if_neg h0, if_neg h1, if_neg h2, if_pos hc]
    · intro j hj
      rw [if_neg (by omega)]
  · unfold FileM.copy_within
    rw [if_neg h0, if_neg h1, if_neg h2, if_neg hc]
    have hdS := takeOrFetch_data a f src count
    have hposS := takeOrFetch_pos a f src count
    have hposD := takeOrFetch_pos a (f.takeOrFetch a src count).1 dst count
    have hdataD :
        ((f.takeOrFetch a src count).1.takeOrFetch a dst count).1.data
          = f.data := by
      rw [takeOrFetch_data, hdS]
    have hsafe2 : ((f.takeOrFetch a src count).2.base_ptr
        == ((f.takeOrFetch a src count).1.takeOrFetch a dst
            count).2.base_ptr) = true
        ∨ src + count ≤ dst ∨ dst + count ≤ src := by
      rcases hsafe with h | h
      · exact Or.inl (by simpa using h)
      · exact Or.inr h
    refine ⟨_, rfl, ?_, ?_⟩
    · dsimp only
      rw [hposS.1, hposD.1, hdataD]
      exact (copy_core_spec f.data _ backward src dst count (by omega)
        (by omega) hsafe2).1
    · intro j hj
      dsimp only
      rw [hposS.1, hposD.1, hdataD]
      exact (copy_core_spec f.data _ backward src dst count (by omega)
        (by omega) hsafe2).2 j hj

/-- Witness for `copy_within_memmove_cases`: block size 4 makes the
overlapping views of `copy_within(0, 1, 2)` share one block, for both
copy directions. -/
theorem copy_within_memmove_cases_witness :
    (∃ f2, FileM.copy_within 2 false exCopySame 0 1 2 = .ok f2 ∧
      f2.data.length = exCopySame.data.length ∧
      ∀ j, j < exCopySame.data.length →
        f2.data.getD j 0 =
          if 1 ≤ j ∧ j < 1 + 2 then exCopySame.data.getD (0 + (j - 1)) 0
          else exCopySame.data.getD j 0) ∧
    (∃ f2, FileM.copy_within 2 true exCopySame 0 1 2 = .ok f2 ∧
      f2.data.length = exCopySame.data.length ∧
      ∀ j, j < exCopySame.data.length →
        f2.data.getD j 0 =
          if 1 ≤ j ∧ j < 1 + 2 then exCopySame.data.getD (0 + (j - 1)) 0
          else exCopySame.data.getD j 0) :=
  ⟨copy_within_memmove_cases 2 false exCopySame 0 1 2 rfl (by decide)
      (by decide) (Or.inl (by decide)),
   copy_within_memmove_cases 2 true exCopySame 0 1 2 rfl (by decide)
      (by decide) (Or.inl (by decide))⟩

end Harrow
